import Mathlib

/-!
Verification of the ola-lang-abi crate (contract-ABI codec for a
field-element VM) against its natural-language specification.

Shallow embedding notes.
* `src/src/abi.rs` and `src/src/params.rs` are embedded directly.
* The crate's `types.rs` (the `Type`/`Value` definitions, the value codec
  `Value::encode` / `Value::decode_from_slice`, the `Display` rendering) and
  the `Event` type are not part of the provided sources; those definitions
  are modelled from the specification (each marked `Modelled from the spec:`).
* The 256-bit hash primitive (tiny_keccak) is an external collaborator; it is
  modelled as an abstract function parameter `H : String → List Nat`
  returning the 32 digest bytes of the UTF-8 signature string.
* Machine integers are modelled as `Nat`; words of the wire format are 64-bit
  words, selectors are 32-bit values widened to 64-bit words.
-/

namespace OlaAbi

/-- Modelled from the spec: the `Type` tagged union of the missing
`types.rs` (spec §3), whose shape is also pinned by the uses in
`params.rs`/`abi.rs` (`Type::U32`, `Type::Array(Box<Type>)`,
`Type::FixedArray(Box<Type>, u64)`, `Type::Tuple(Vec<(String, Type)>)`...).
Named `Ty` because `Type` is a Lean keyword. -/
inductive Ty where
  | u32 : Ty
  | u256 : Ty
  | field : Ty
  | address : Ty
  | hash : Ty
  | bool : Ty
  | string : Ty
  | fields : Ty
  | array (elem : Ty) : Ty
  | fixedArray (elem : Ty) (size : Nat) : Ty
  | tuple (comps : List (String × Ty)) : Ty

mutual

/-- Boolean equality on `Ty` (the derived `PartialEq` of the source). -/
def tyBeq : Ty → Ty → Bool
  | .u32, .u32 => true
  | .u256, .u256 => true
  | .field, .field => true
  | .address, .address => true
  | .hash, .hash => true
  | .bool, .bool => true
  | .string, .string => true
  | .fields, .fields => true
  | .array a, .array b => tyBeq a b
  | .fixedArray a m, .fixedArray b n => tyBeq a b && m == n
  | .tuple a, .tuple b => tupleTyBeq a b
  | _, _ => false

/-- Boolean equality on tuple component lists. -/
def tupleTyBeq : List (String × Ty) → List (String × Ty) → Bool
  | [], [] => true
  | (n₁, t₁) :: r₁, (n₂, t₂) :: r₂ => n₁ == n₂ && tyBeq t₁ t₂ && tupleTyBeq r₁ r₂
  | _, _ => false

end

mutual

theorem tyBeq_eq : ∀ (t₁ t₂ : Ty), tyBeq t₁ t₂ = true ↔ t₁ = t₂
  | .u32, t₂ => by cases t₂ <;> simp [tyBeq]
  | .u256, t₂ => by cases t₂ <;> simp [tyBeq]
  | .field, t₂ => by cases t₂ <;> simp [tyBeq]
  | .address, t₂ => by cases t₂ <;> simp [tyBeq]
  | .hash, t₂ => by cases t₂ <;> simp [tyBeq]
  | .bool, t₂ => by cases t₂ <;> simp [tyBeq]
  | .string, t₂ => by cases t₂ <;> simp [tyBeq]
  | .fields, t₂ => by cases t₂ <;> simp [tyBeq]
  | .array a, .array b => by
      simp only [tyBeq]
      rw [tyBeq_eq a b]
      simp
  | .fixedArray a m, .fixedArray b n => by
      simp only [tyBeq, Bool.and_eq_true, beq_iff_eq]
      rw [tyBeq_eq a b]
      simp
  | .tuple a, .tuple b => by
      simp only [tyBeq]
      rw [tupleTyBeq_eq a b]
      simp
  | .array _, .u32 => by simp [tyBeq]
  | .array _, .u256 => by simp [tyBeq]
  | .array _, .field => by simp [tyBeq]
  | .array _, .address => by simp [tyBeq]
  | .array _, .hash => by simp [tyBeq]
  | .array _, .bool => by simp [tyBeq]
  | .array _, .string => by simp [tyBeq]
  | .array _, .fields => by simp [tyBeq]
  | .array _, .fixedArray _ _ => by simp [tyBeq]
  | .array _, .tuple _ => by simp [tyBeq]
  | .fixedArray _ _, .u32 => by simp [tyBeq]
  | .fixedArray _ _, .u256 => by simp [tyBeq]
  | .fixedArray _ _, .field => by simp [tyBeq]
  | .fixedArray _ _, .address => by simp [tyBeq]
  | .fixedArray _ _, .hash => by simp [tyBeq]
  | .fixedArray _ _, .bool => by simp [tyBeq]
  | .fixedArray _ _, .string => by simp [tyBeq]
  | .fixedArray _ _, .fields => by simp [tyBeq]
  | .fixedArray _ _, .array _ => by simp [tyBeq]
  | .fixedArray _ _, .tuple _ => by simp [tyBeq]
  | .tuple _, .u32 => by simp [tyBeq]
  | .tuple _, .u256 => by simp [tyBeq]
  | .tuple _, .field => by simp [tyBeq]
  | .tuple _, .address => by simp [tyBeq]
  | .tuple _, .hash => by simp [tyBeq]
  | .tuple _, .bool => by simp [tyBeq]
  | .tuple _, .string => by simp [tyBeq]
  | .tuple _, .fields => by simp [tyBeq]
  | .tuple _, .array _ => by simp [tyBeq]
  | .tuple _, .fixedArray _ _ => by simp [tyBeq]

theorem tupleTyBeq_eq : ∀ (l₁ l₂ : List (String × Ty)), tupleTyBeq l₁ l₂ = true ↔ l₁ = l₂
  | [], [] => by simp [tupleTyBeq]
  | (n₁, t₁) :: r₁, (n₂, t₂) :: r₂ => by
      simp only [tupleTyBeq, Bool.and_eq_true, beq_iff_eq]
      rw [tyBeq_eq t₁ t₂, tupleTyBeq_eq r₁ r₂]
      simp +contextual [and_assoc]
  | [], _ :: _ => by simp [tupleTyBeq]
  | _ :: _, [] => by simp [tupleTyBeq]

end

instance : DecidableEq Ty := fun a b => decidable_of_iff _ (tyBeq_eq a b)

/-- Modelled from the spec: the canonical rendering of a type (spec §4.1
Render), i.e. the `Display` implementation of the missing `types.rs`:
scalars render as their keyword, `Array(T)` as `render(T) ++ "[]"`,
`FixedArray(T,N)` as `render(T) ++ "[N]"`, `Tuple(_)` as the literal
`"tuple"`. -/
def tyRender : Ty → String
  | .u32 => "u32"
  | .u256 => "u256"
  | .field => "field"
  | .address => "address"
  | .hash => "hash"
  | .bool => "bool"
  | .string => "string"
  | .fields => "fields"
  | .array t => tyRender t ++ "[]"
  | .fixedArray t n => tyRender t ++ "[" ++ toString n ++ "]"
  | .tuple _ => "tuple"

/-- `Param` from `src/src/params.rs` (lines 72-81). -/
structure Param where
  name : String
  type_ : Ty
  indexed : Option Bool
  deriving DecidableEq

/-- `Function` from `src/src/abi.rs` (lines 153-162). -/
structure Function where
  name : String
  inputs : List Param
  outputs : List Param
  deriving DecidableEq

/-- `Function::signature` from `src/src/abi.rs` (lines 176-187):
`format!("{}({})", name, inputs.map(|p| p.type_.to_string()).join(","))`. -/
def Function.signature (f : Function) : String :=
  f.name ++ "(" ++ String.intercalate "," (f.inputs.map (fun p => tyRender p.type_)) ++ ")"

/-- Big-endian value of a byte list, as in `u32::from_be_bytes`. -/
def beBytes (bs : List Nat) : Nat :=
  bs.foldl (fun a b => a * 256 + b) 0

/-- `Function::method_id` from `src/src/abi.rs` (lines 166-174): hash the
UTF-8 signature with the (abstract) 256-bit digest function `H`, read the
first four digest bytes big-endian as a `u32`, widen to a 64-bit word. -/
def Function.method_id (H : String → List Nat) (f : Function) : Nat :=
  beBytes ((H f.signature).take 4)

theorem beBytes_lt (bs : List Nat) (hb : ∀ b ∈ bs, b < 256) :
    beBytes bs < 256 ^ bs.length := by
  suffices h : ∀ a, List.foldl (fun a b => a * 256 + b) a bs < (a + 1) * 256 ^ bs.length by
    have := h 0
    simpa [beBytes] using this
  induction bs with
  | nil => intro a; simp
  | cons x xs ih =>
    intro a
    have hx : x < 256 := hb x (by simp)
    have hxs : ∀ b ∈ xs, b < 256 := fun b hbmem => hb b (by simp [hbmem])
    have ih' := (ih hxs) (a * 256 + x)
    calc List.foldl (fun a b => a * 256 + b) (a * 256 + x) xs
        < (a * 256 + x + 1) * 256 ^ xs.length := ih'
      _ ≤ ((a + 1) * 256) * 256 ^ xs.length := by nlinarith
      _ = (a + 1) * 256 ^ (x :: xs).length := by ring_nf; simp [List.length_cons]; ring

/-- C1: for every `Function`, `method_id()` is obtained by hashing the UTF-8
signature string with the 256-bit digest function and truncating the digest to
its first 32 bits (read big-endian, as `u32::from_be_bytes(out[0..4])` does),
the resulting selector occupying the low 32 bits of the returned 64-bit word
(`as u64`); and `method_id` is a pure function of `signature()`. -/
theorem claim_C1_method_id (H : String → List Nat)
    (hbyte : ∀ s, ∀ b ∈ H s, b < 256) (f : Function) :
    Function.method_id H f = beBytes ((H f.signature).take 4) ∧
    Function.method_id H f < 2 ^ 32 ∧
    (∀ g : Function, g.signature = f.signature →
      Function.method_id H g = Function.method_id H f) := by
  refine ⟨rfl, ?_, ?_⟩
  · have hb : ∀ b ∈ (H f.signature).take 4, b < 256 := by
      intro b hb
      exact hbyte _ b (List.mem_of_mem_take hb)
    have h1 := beBytes_lt _ hb
    have h2 : ((H f.signature).take 4).length ≤ 4 := by
      simp [List.length_take]
    calc beBytes ((H f.signature).take 4)
        < 256 ^ ((H f.signature).take 4).length := h1
      _ ≤ 256 ^ 4 := Nat.pow_le_pow_right (by norm_num) h2
      _ = 2 ^ 32 := by norm_num
  · intro g hg
    unfold Function.method_id
    rw [hg]

/-- Fixed digest function used to instantiate hash-parametric theorems on
concrete inputs (any function into 32 bytes works). -/
def hashEx : String → List Nat := fun _ => List.range 32

/-- Example function mirroring the `funname(address,u32[2])` test fixture of
`src/src/abi.rs`. -/
def funEx : Function :=
  { name := "funname"
    inputs := [ { name := "", type_ := .address, indexed := none }
              , { name := "x", type_ := .fixedArray .u32 2, indexed := none } ]
    outputs := [] }

theorem claim_C1_method_id_witness :
    Function.method_id hashEx funEx = beBytes ((hashEx funEx.signature).take 4) ∧
    Function.method_id hashEx funEx < 2 ^ 32 ∧
    (∀ g : Function, g.signature = funEx.signature →
      Function.method_id hashEx g = Function.method_id hashEx funEx) :=
  claim_C1_method_id hashEx
    (fun _ b hb => by simp [hashEx, List.mem_range] at hb; omega)
    funEx

/-- C7: `signature()` is the function name followed by the comma-joined
canonical renderings of the input types in parentheses, and it (and hence
`method_id()`, for every digest function) depends only on the name and the
input types — never on parameter names, indexed flags, or outputs. -/
theorem claim_C7_signature_pure :
    (∀ f : Function, f.signature =
        f.name ++ "(" ++
          String.intercalate "," (f.inputs.map (fun p => tyRender p.type_)) ++ ")") ∧
    ∀ f₁ f₂ : Function, f₁.name = f₂.name →
      f₁.inputs.map Param.type_ = f₂.inputs.map Param.type_ →
      f₁.signature = f₂.signature ∧
      ∀ H : String → List Nat, Function.method_id H f₁ = Function.method_id H f₂ := by
  constructor
  · intro f; rfl
  · intro f₁ f₂ hn ht
    have hrend : f₁.inputs.map (fun p => tyRender p.type_) =
        f₂.inputs.map (fun p => tyRender p.type_) := by
      have h := congrArg (List.map tyRender) ht
      simpa [List.map_map] using h
    have hsig : f₁.signature = f₂.signature := by
      unfold Function.signature
      rw [hn, hrend]
    exact ⟨hsig, fun H => by unfold Function.method_id; rw [hsig]⟩

/-- Variant of `funEx` with renamed parameters and an added output; used to
witness signature purity. -/
def funEx' : Function :=
  { name := "funname"
    inputs := [ { name := "renamed", type_ := .address, indexed := none }
              , { name := "y", type_ := .fixedArray .u32 2, indexed := none } ]
    outputs := [ { name := "out", type_ := .u32, indexed := none } ] }

theorem claim_C7_signature_pure_witness :
    funEx.signature = funEx'.signature ∧
    ∀ H : String → List Nat, Function.method_id H funEx = Function.method_id H funEx' :=
  claim_C7_signature_pure.2 funEx funEx' rfl rfl

/-- Modelled from the spec: the `Value` tagged union of the missing
`types.rs` (spec §3), mirroring `Ty` variant-for-variant; `Array` and
`FixedArray` carry the element type alongside the element values (needed to
encode an empty array unambiguously), `Tuple` carries named field values,
256-bit kinds carry their 4-word representation. -/
inductive Value where
  | u32 (n : Nat)
  | u256 (ws : List Nat)
  | field (n : Nat)
  | address (ws : List Nat)
  | hash (ws : List Nat)
  | bool (b : Bool)
  | string (cs : List Char)
  | fields (ns : List Nat)
  | array (elems : List Value) (elemTy : Ty)
  | fixedArray (elems : List Value) (elemTy : Ty)
  | tuple (fs : List (String × Value))

mutual

/-- Modelled from the spec: per-variant value encoding (spec §4.2 Encode):
scalars are 1 word, 256-bit kinds are their 4 words, `String`/`Fields` and
`Array` are length-prefixed, `FixedArray` and `Tuple` are the bare
concatenation of their element/field encodings. -/
def encodeValue : Value → List Nat
  | .u32 n => [n]
  | .u256 ws => ws
  | .field n => [n]
  | .address ws => ws
  | .hash ws => ws
  | .bool b => [if b then 1 else 0]
  | .string cs => cs.length :: cs.map Char.toNat
  | .fields ns => ns.length :: ns
  | .array es _ => es.length :: encodeList es
  | .fixedArray es _ => encodeList es
  | .tuple fs => encodeTupleVals fs

/-- Concatenated encodings of a value list (no separators). -/
def encodeList : List Value → List Nat
  | [] => []
  | v :: vs => encodeValue v ++ encodeList vs

/-- Concatenated encodings of tuple field values, in declared order. -/
def encodeTupleVals : List (String × Value) → List Nat
  | [] => []
  | (_, v) :: fs => encodeValue v ++ encodeTupleVals fs

end

/-- Modelled from the spec: `Value::encode` concatenates, in order, the
encoding of each value (spec §4.2). -/
def Value.encode (vs : List Value) : List Nat := encodeList vs

mutual

/-- Typing relation: the value's variant matches the declared type,
recursively, with the structural side conditions the codec relies on
(4-word 256-bit kinds, `FixedArray` length equal to the declared size,
carried element types equal to the declared element type, tuple field names
matching the declared component names, scalars within word range). -/
def matchesTy : Value → Ty → Bool
  | .u32 n, .u32 => decide (n < 2 ^ 32)
  | .u256 ws, .u256 => ws.length == 4
  | .field _, .field => true
  | .address ws, .address => ws.length == 4
  | .hash ws, .hash => ws.length == 4
  | .bool _, .bool => true
  | .string _, .string => true
  | .fields _, .fields => true
  | .array es t, .array t' => tyBeq t t' && matchesList es t'
  | .fixedArray es t, .fixedArray t' n => tyBeq t t' && es.length == n && matchesList es t'
  | .tuple fs, .tuple tfs => matchesTuple fs tfs
  | _, _ => false

/-- All values of a list match a single element type. -/
def matchesList : List Value → Ty → Bool
  | [], _ => true
  | v :: vs, t => matchesTy v t && matchesList vs t

/-- Tuple field values match the declared components pointwise. -/
def matchesTuple : List (String × Value) → List (String × Ty) → Bool
  | [], [] => true
  | (n, v) :: fs, (n', t) :: tfs => n == n' && matchesTy v t && matchesTuple fs tfs
  | _, _ => false

end

/-- An ordered value list matches an ordered type list pointwise. -/
def matchesSeq : List Value → List Ty → Bool
  | [], [] => true
  | v :: vs, t :: ts => matchesTy v t && matchesSeq vs ts
  | _, _ => false

/-- Decode one character word; fails when the word is not a valid Unicode
scalar value ("a numeric word cannot represent its target scalar kind"). -/
def decodeChar (w : Nat) : Option Char :=
  if w.isValidChar then some (Char.ofNat w) else none

/-- Decode a list of character words. -/
def decodeChars : List Nat → Option (List Char)
  | [] => some []
  | w :: ws =>
      match decodeChar w, decodeChars ws with
      | some c, some cs => some (c :: cs)
      | _, _ => none

mutual

/-- Modelled from the spec: type-directed decoding of one value from the
word stream (spec §4.2 Decode), consuming left to right in lock-step with
the type; the exact inverse of `encodeValue` per variant, failing when the
stream is exhausted early, a length prefix overruns the stream, or a word
cannot represent its target scalar kind. -/
def decodeValue : Ty → List Nat → Option (Value × List Nat)
  | .u32, [] => none
  | .u32, w :: ws => if w < 2 ^ 32 then some (.u32 w, ws) else none
  | .u256, ws => if 4 ≤ ws.length then some (.u256 (ws.take 4), ws.drop 4) else none
  | .field, [] => none
  | .field, w :: ws => some (.field w, ws)
  | .address, ws => if 4 ≤ ws.length then some (.address (ws.take 4), ws.drop 4) else none
  | .hash, ws => if 4 ≤ ws.length then some (.hash (ws.take 4), ws.drop 4) else none
  | .bool, [] => none
  | .bool, w :: ws => if w < 2 then some (.bool (w == 1), ws) else none
  | .string, [] => none
  | .string, n :: ws =>
      if n ≤ ws.length then
        match decodeChars (ws.take n) with
        | some cs => some (.string cs, ws.drop n)
        | none => none
      else none
  | .fields, [] => none
  | .fields, n :: ws =>
      if n ≤ ws.length then some (.fields (ws.take n), ws.drop n) else none
  | .array _, [] => none
  | .array t, n :: ws =>
      match decodeCount t n ws with
      | some (vs, r) => some (.array vs t, r)
      | none => none
  | .fixedArray t n, ws =>
      match decodeCount t n ws with
      | some (vs, r) => some (.fixedArray vs t, r)
      | none => none
  | .tuple tfs, ws =>
      match decodeTuple tfs ws with
      | some (fs, r) => some (.tuple fs, r)
      | none => none
termination_by t _ => (sizeOf t, 0, 0)

/-- Decode `n` consecutive values of one element type. -/
def decodeCount : Ty → Nat → List Nat → Option (List Value × List Nat)
  | _, 0, ws => some ([], ws)
  | t, n + 1, ws =>
      match decodeValue t ws with
      | some (v, ws') =>
          match decodeCount t n ws' with
          | some (vs, r) => some (v :: vs, r)
          | none => none
      | none => none
termination_by t n _ => (sizeOf t, n, 1)

/-- Decode tuple fields against the declared components, in order, pairing
each decoded value with the declared component name. -/
def decodeTuple : List (String × Ty) → List Nat → Option (List (String × Value) × List Nat)
  | [], ws => some ([], ws)
  | (nm, t) :: tfs, ws =>
      match decodeValue t ws with
      | some (v, ws') =>
          match decodeTuple tfs ws' with
          | some (fs, r) => some ((nm, v) :: fs, r)
          | none => none
      | none => none
termination_by tfs _ => (sizeOf tfs, 0, 0)

end

/-- Decode an ordered type list against the word stream, threading the
cursor. -/
def decodeSeq : List Ty → List Nat → Option (List Value × List Nat)
  | [], ws => some ([], ws)
  | t :: ts, ws =>
      match decodeValue t ws with
      | some (v, ws') =>
          match decodeSeq ts ws' with
          | some (vs, r) => some (v :: vs, r)
          | none => none
      | none => none

/-- Modelled from the spec: `Value::decode_from_slice` decodes the word
stream against the expected types, returning the decoded values in order
(spec §4.2). -/
def Value.decode_from_slice (ws : List Nat) (ts : List Ty) : Option (List Value) :=
  (decodeSeq ts ws).map (fun p => p.1)



theorem decodeChars_encode : ∀ cs : List Char, decodeChars (cs.map Char.toNat) = some cs := by
  intro cs
  induction cs with
  | nil => simp [decodeChars]
  | cons c cs ih =>
    have hv : Nat.isValidChar c.toNat := c.valid
    simp [decodeChars, decodeChar, hv, Char.ofNat_toNat, ih]

theorem decodeValue_encode_fuel (fuel : Nat) :
    ∀ v : Value, sizeOf v ≤ fuel → ∀ t, matchesTy v t = true →
      ∀ rest, decodeValue t (encodeValue v ++ rest) = some (v, rest) := by
  induction fuel with
  | zero =>
    intro v hv
    exfalso
    cases v <;> simp_arith at hv
  | succ n ih =>
    have ihList : ∀ es : List Value, sizeOf es ≤ n → ∀ t', matchesList es t' = true →
        ∀ r, decodeCount t' es.length (encodeList es ++ r) = some (es, r) := by
      intro es
      induction es with
      | nil => intro _ t' _ r; simp [encodeList, decodeCount]
      | cons e es' ihes =>
        intro hsz t' hm' r
        have hb : sizeOf e ≤ n ∧ sizeOf es' ≤ n := by simp_arith at hsz; omega
        simp only [matchesList, Bool.and_eq_true] at hm'
        simp only [encodeList, List.length_cons, List.append_assoc, decodeCount]
        rw [ih e hb.1 t' hm'.1]
        simp [ihes hb.2 t' hm'.2 r]
    have ihTuple : ∀ fs : List (String × Value), sizeOf fs ≤ n →
        ∀ tfs, matchesTuple fs tfs = true →
        ∀ r, decodeTuple tfs (encodeTupleVals fs ++ r) = some (fs, r) := by
      intro fs
      induction fs with
      | nil =>
        intro _ tfs hm' r
        cases tfs with
        | nil => simp [encodeTupleVals, decodeTuple]
        | cons _ _ => simp [matchesTuple] at hm'
      | cons p fs' ihfs =>
        obtain ⟨nm, v⟩ := p
        intro hsz tfs hm' r
        cases tfs with
        | nil => simp [matchesTuple] at hm'
        | cons q tfs' =>
          obtain ⟨nm', t⟩ := q
          simp only [matchesTuple, Bool.and_eq_true, beq_iff_eq] at hm'
          obtain ⟨⟨hnm, hmv⟩, hmfs⟩ := hm'
          have hb : sizeOf v ≤ n ∧ sizeOf fs' ≤ n := by simp_arith at hsz; omega
          simp only [encodeTupleVals, List.append_assoc, decodeTuple]
          rw [ih v hb.1 t hmv]
          simp [ihfs hb.2 tfs' hmfs r, hnm]
    intro v hv t hm rest
    cases v with
    | u32 m =>
      cases t <;> simp [matchesTy] at hm
      simp only [encodeValue, List.cons_append, List.nil_append, decodeValue]
      rw [if_pos (by omega)]
    | u256 ws =>
      cases t <;> simp [matchesTy] at hm
      have h4 : 4 ≤ (ws ++ rest).length := by simp [hm]
      simp only [encodeValue, decodeValue]
      rw [if_pos h4, ← hm, List.take_left, List.drop_left]
    | field m =>
      cases t <;> simp [matchesTy] at hm
      simp [encodeValue, decodeValue]
    | address ws =>
      cases t <;> simp [matchesTy] at hm
      have h4 : 4 ≤ (ws ++ rest).length := by simp [hm]
      simp only [encodeValue, decodeValue]
      rw [if_pos h4, ← hm, List.take_left, List.drop_left]
    | hash ws =>
      cases t <;> simp [matchesTy] at hm
      have h4 : 4 ≤ (ws ++ rest).length := by simp [hm]
      simp only [encodeValue, decodeValue]
      rw [if_pos h4, ← hm, List.take_left, List.drop_left]
    | bool b =>
      cases t <;> simp [matchesTy] at hm
      cases b <;> norm_num [encodeValue, decodeValue]
    | string cs =>
      cases t <;> simp [matchesTy] at hm
      have hlen : cs.length ≤ (cs.map Char.toNat ++ rest).length := by simp
      simp only [encodeValue, List.cons_append, decodeValue]
      rw [if_pos hlen,
        show cs.length = (cs.map Char.toNat).length from (List.length_map _ _).symm,
        List.take_left, List.drop_left, decodeChars_encode]
    | fields ns =>
      cases t <;> simp [matchesTy] at hm
      have hlen : ns.length ≤ (ns ++ rest).length := by simp
      simp only [encodeValue, List.cons_append, decodeValue]
      rw [if_pos hlen, List.take_left, List.drop_left]
    | array es t0 =>
      cases t <;> simp [matchesTy] at hm
      rename_i t'
      obtain ⟨ht, hml⟩ := hm
      have ht' : t0 = t' := (tyBeq_eq t0 t').mp ht
      subst ht'
      have hsz : sizeOf es ≤ n := by simp_arith at hv; omega
      have hml' : matchesList es t0 = true := hml
      simp only [encodeValue, List.cons_append, decodeValue]
      rw [ihList es hsz t0 hml' rest]
    | fixedArray es t0 =>
      cases t <;> simp [matchesTy] at hm
      rename_i t' k'
      obtain ⟨⟨ht, hk⟩, hml⟩ := hm
      have ht' : t0 = t' := (tyBeq_eq t0 t').mp ht
      subst ht'
      subst hk
      have hsz : sizeOf es ≤ n := by simp_arith at hv; omega
      have hml' : matchesList es t0 = true := hml
      simp only [encodeValue, decodeValue]
      rw [ihList es hsz t0 hml' rest]
    | tuple fs =>
      cases t <;> simp [matchesTy] at hm
      rename_i tfs
      have hsz : sizeOf fs ≤ n := by simp_arith at hv; omega
      have hm' : matchesTuple fs tfs = true := hm
      simp only [encodeValue, decodeValue]
      rw [ihTuple fs hsz tfs hm' rest]

theorem decodeValue_encode (v : Value) (t : Ty) (h : matchesTy v t = true) (rest : List Nat) :
    decodeValue t (encodeValue v ++ rest) = some (v, rest) :=
  decodeValue_encode_fuel (sizeOf v) v le_rfl t h rest



theorem decodeSeq_encode : ∀ (vs : List Value) (ts : List Ty), matchesSeq vs ts = true →
    ∀ rest, decodeSeq ts (encodeList vs ++ rest) = some (vs, rest) := by
  intro vs
  induction vs with
  | nil =>
    intro ts hm rest
    cases ts with
    | nil => simp [encodeList, decodeSeq]
    | cons _ _ => simp [matchesSeq] at hm
  | cons v vs ih =>
    intro ts hm rest
    cases ts with
    | nil => simp [matchesSeq] at hm
    | cons t ts' =>
      simp only [matchesSeq, Bool.and_eq_true] at hm
      simp only [encodeList, List.append_assoc, decodeSeq]
      rw [decodeValue_encode v t hm.1]
      simp [ih ts' hm.2 rest]

/-- C2: for every ordered list of values whose variants match a declared
type list, decoding the encoding of the values against those types yields the
values again — the value codec's decode is the exact inverse of encode,
recursively for composite types (proved via `decodeValue_encode`, the
per-value inverse property with an arbitrary remaining stream). -/
theorem claim_C2_roundtrip (vs : List Value) (ts : List Ty) (h : matchesSeq vs ts = true) :
    Value.decode_from_slice (Value.encode vs) ts = some vs := by
  have h1 := decodeSeq_encode vs ts h []
  rw [List.append_nil] at h1
  simp [Value.decode_from_slice, Value.encode, h1]

/-- Example value list exercising scalars, fixed arrays, strings, tuples,
dynamic arrays and 256-bit kinds. -/
def vsEx : List Value :=
  [ .u32 37
  , .fixedArray [.u32 1, .u32 2] .u32
  , .string ['h', 'i']
  , .tuple [("a", .u32 5), ("b", .array [.bool true] .bool)]
  , .address [1, 2, 3, 4] ]

/-- Declared types matching `vsEx`. -/
def tsEx : List Ty :=
  [ .u32, .fixedArray .u32 2, .string, .tuple [("a", .u32), ("b", .array .bool)], .address ]

theorem claim_C2_roundtrip_witness :
    matchesSeq vsEx tsEx = true ∧
    Value.decode_from_slice (Value.encode vsEx) tsEx = some vsEx :=
  ⟨by decide, claim_C2_roundtrip vsEx tsEx (by decide)⟩

/-- `ParamEntry` from `src/src/params.rs` (lines 156-165): the JSON-level
parameter entry, with an optional nested `components` list. -/
inductive ParamEntry where
  | mk (name : String) (type_ : String) (indexed : Option Bool)
       (components : Option (List ParamEntry)) : ParamEntry

/-- Entry name. -/
def ParamEntry.name : ParamEntry → String
  | .mk n _ _ _ => n

/-- Entry type string. -/
def ParamEntry.type_ : ParamEntry → String
  | .mk _ t _ _ => t

/-- Entry indexed flag. -/
def ParamEntry.indexed : ParamEntry → Option Bool
  | .mk _ _ ix _ => ix

/-- Entry nested components. -/
def ParamEntry.components : ParamEntry → Option (List ParamEntry)
  | .mk _ _ _ cs => cs

/-- Parse outcome mirroring nom's `IResult` with the
`TypeParseError` error type of `src/src/params.rs`: `ok` is success with the
unconsumed remainder, `err` is a recoverable `nom::Err::Error` (an `alt` tries
its next alternative), `fail` is `nom::Err::Failure` (aborts the whole parse;
this is the `GrammarError` of the spec's taxonomy). -/
inductive PRes (α : Type) where
  | ok (rest : List Char) (val : α)
  | err : PRes α
  | fail : PRes α
  deriving DecidableEq

/-- nom's `tag`: match a literal prefix, consume it. -/
def tagP (s : List Char) (i : List Char) : PRes Unit :=
  if s.isPrefixOf i then .ok (i.drop s.length) () else .err

/-- `parse_u32` from `src/src/params.rs` (lines 241-243). -/
def parse_u32 (i : List Char) : PRes Ty :=
  match tagP "u32".toList i with
  | .ok r _ => .ok r .u32
  | _ => .err

/-- `parse_u256` from `src/src/params.rs` (lines 245-247). -/
def parse_u256 (i : List Char) : PRes Ty :=
  match tagP "u256".toList i with
  | .ok r _ => .ok r .u256
  | _ => .err

/-- `parse_field` from `src/src/params.rs` (lines 249-251). -/
def parse_field (i : List Char) : PRes Ty :=
  match tagP "field".toList i with
  | .ok r _ => .ok r .field
  | _ => .err

/-- `parse_address` from `src/src/params.rs` (lines 253-255). -/
def parse_address (i : List Char) : PRes Ty :=
  match tagP "address".toList i with
  | .ok r _ => .ok r .address
  | _ => .err

/-- `parse_hash` from `src/src/params.rs` (lines 257-259). -/
def parse_hash (i : List Char) : PRes Ty :=
  match tagP "hash".toList i with
  | .ok r _ => .ok r .hash
  | _ => .err

/-- `parse_bool` from `src/src/params.rs` (lines 261-263). -/
def parse_bool (i : List Char) : PRes Ty :=
  match tagP "bool".toList i with
  | .ok r _ => .ok r .bool
  | _ => .err

/-- `parse_string` from `src/src/params.rs` (lines 265-267). -/
def parse_string (i : List Char) : PRes Ty :=
  match tagP "string".toList i with
  | .ok r _ => .ok r .string
  | _ => .err

/-- `parse_fields` from `src/src/params.rs` (lines 269-271). -/
def parse_fields (i : List Char) : PRes Ty :=
  match tagP "fields".toList i with
  | .ok r _ => .ok r .fields
  | _ => .err

/-- Numeric value of a run of decimal digit characters. -/
def natOfDigits (ds : List Char) : Nat :=
  ds.foldl (fun a c => a * 10 + (c.toNat - 48)) 0

/-- One bracket group `delimited(char('['), opt(parse_integer), char(']'))`
from `parse_array` (`src/src/params.rs` line 279), with `parse_integer`
(lines 325-327) failing on a `u64` overflow (`str::parse`, caught by
`map_res`), in which case `opt` consumes nothing and `char(']')` then fails
on the first digit. -/
def parseBracket (i : List Char) : PRes (Option Nat) :=
  match i with
  | c :: t =>
      if c = '[' then
        let ds := t.takeWhile Char.isDigit
        let r := t.dropWhile Char.isDigit
        if ds.isEmpty then
          match r with
          | ']' :: r' => .ok r' none
          | _ => .err
        else if natOfDigits ds < 2 ^ 64 then
          match r with
          | ']' :: r' => .ok r' (some (natOfDigits ds))
          | _ => .err
        else .err
      else .err
  | [] => .err

/-- Bracket loop of nom's `many1`: keep parsing bracket groups until the
bracket parser errors. The fuel argument bounds the number of iterations;
since every successful bracket group consumes at least one character,
starting with the input length as fuel makes this exactly the unbounded
loop. -/
def parseBracketsGo (fuel : Nat) (i : List Char) : List (Option Nat) × List Char :=
  match fuel with
  | 0 => ([], i)
  | fuel + 1 =>
      match parseBracket i with
      | .ok r v =>
          let p := parseBracketsGo fuel r
          (v :: p.1, p.2)
      | _ => ([], i)

/-- `many1(delimited(char('['), opt(parse_integer), char(']')))` from
`src/src/params.rs` line 279: at least one bracket group, then as many as
parse. -/
def manyBrackets (i : List Char) : PRes (List (Option Nat)) :=
  match parseBracket i with
  | .ok r v =>
      let p := parseBracketsGo r.length r
      .ok p.2 (v :: p.1)
  | .err => .err
  | .fail => .fail

/-- `array_from_size` closure of `parse_array` (`src/src/params.rs` lines
283-286): a missing size gives a dynamic `Array`, a present size a
`FixedArray`. -/
def arrayFromSize (ty : Ty) (size : Option Nat) : Ty :=
  match size with
  | none => .array ty
  | some n => .fixedArray ty n

mutual

/-- `parse_exact_type` from `src/src/params.rs` (lines 205-210):
`all_consuming(parse_type(components))`, an error if any input remains. -/
def parse_exact_type (comps : Option (List ParamEntry)) (i : List Char) : PRes Ty :=
  match parse_type comps i with
  | .ok [] ty => .ok [] ty
  | .ok (_ :: _) _ => .err
  | .err => .err
  | .fail => .fail
termination_by (sizeOf comps, 4)

/-- `parse_type` from `src/src/params.rs` (lines 212-221):
`alt((parse_array(components), parse_simple_type(components)))`. -/
def parse_type (comps : Option (List ParamEntry)) (i : List Char) : PRes Ty :=
  match parse_array comps i with
  | .ok r v => .ok r v
  | .fail => .fail
  | .err => parse_simple_type comps i
termination_by (sizeOf comps, 3)

/-- `parse_array` from `src/src/params.rs` (lines 273-293): a simple type
followed by one or more bracket groups; the first bracket wraps the base
type (`init_arr_ty`), the remaining brackets are folded left over the
result. -/
def parse_array (comps : Option (List ParamEntry)) (i : List Char) : PRes Ty :=
  match parse_simple_type comps i with
  | .ok r ty =>
      match manyBrackets r with
      | .ok r' sizes =>
          match sizes with
          | [] => .err
          | s0 :: srest => .ok r' (srest.foldl arrayFromSize (arrayFromSize ty s0))
      | .err => .err
      | .fail => .fail
  | .err => .err
  | .fail => .fail
termination_by (sizeOf comps, 2)

/-- `parse_simple_type` from `src/src/params.rs` (lines 223-239): the `alt`
chain `tuple, fields, u32, u256, field, address, hash, bool, string`, in
source order; a `Failure` from `parse_tuple` aborts the chain. -/
def parse_simple_type (comps : Option (List ParamEntry)) (i : List Char) : PRes Ty :=
  match parse_tuple comps i with
  | .ok r v => .ok r v
  | .fail => .fail
  | .err =>
      match parse_fields i with
      | .ok r v => .ok r v
      | _ =>
          match parse_u32 i with
          | .ok r v => .ok r v
          | _ =>
              match parse_u256 i with
              | .ok r v => .ok r v
              | _ =>
                  match parse_field i with
                  | .ok r v => .ok r v
                  | _ =>
                      match parse_address i with
                      | .ok r v => .ok r v
                      | _ =>
                          match parse_hash i with
                          | .ok r v => .ok r v
                          | _ =>
                              match parse_bool i with
                              | .ok r v => .ok r v
                              | _ => parse_string i
termination_by (sizeOf comps, 1)

/-- `parse_tuple` from `src/src/params.rs` (lines 295-323): the literal
`tuple`, resolved through the externally supplied components; a missing
components list or a failing component parse is a `nom::Err::Failure`. -/
def parse_tuple (comps : Option (List ParamEntry)) (i : List Char) : PRes Ty :=
  match tagP "tuple".toList i with
  | .ok r _ =>
      match comps with
      | some cs =>
          match resolveComponents cs with
          | some tys => .ok r (.tuple tys)
          | none => .fail
      | none => .fail
  | _ => .err
termination_by (sizeOf comps, 0)

/-- The `try_fold` body of `parse_tuple` (`src/src/params.rs` lines
302-316): parse each component's own type string against that component's
own nested components, pairing the result with the component name, in
order. -/
def resolveComponents : List ParamEntry → Option (List (String × Ty))
  | [] => some []
  | .mk nm ty _ cs :: rest =>
      match parse_exact_type cs ty.toList with
      | .ok _ t =>
          match resolveComponents rest with
          | some tys => some ((nm, t) :: tys)
          | none => none
      | _ => none
termination_by l => (sizeOf l, 5)

end



theorem parse_simple_string2 :
    parse_simple_type none "string[2][]".toList = .ok "[2][]".toList .string := by
  rw [parse_simple_type, parse_tuple]
  decide

theorem parse_array_string2 :
    parse_array none "string[2][]".toList = .ok [] (.array (.fixedArray .string 2)) := by
  rw [parse_array, parse_simple_string2]
  decide

theorem parse_exact_string2 :
    parse_exact_type none "string[2][]".toList = .ok [] (.array (.fixedArray .string 2)) := by
  rw [parse_exact_type, parse_type, parse_array_string2]

theorem parse_simple_string3 :
    parse_simple_type none "string[][3]".toList = .ok "[][3]".toList .string := by
  rw [parse_simple_type, parse_tuple]
  decide

theorem parse_array_string3 :
    parse_array none "string[][3]".toList = .ok [] (.fixedArray (.array .string) 3) := by
  rw [parse_array, parse_simple_string3]
  decide

theorem parse_exact_string3 :
    parse_exact_type none "string[][3]".toList = .ok [] (.fixedArray (.array .string) 3) := by
  rw [parse_exact_type, parse_type, parse_array_string3]

/-- C5: bracket groups are folded left to right — the first bracket wraps
the base simple type directly (innermost layer) and each subsequent bracket
wraps the array type produced so far; concretely, `"string[2][]"` parses to
`Array(FixedArray(String, 2))` and `"string[][3]"` parses to
`FixedArray(Array(String), 3)`. -/
theorem claim_C5_bracket_fold :
    (∀ (comps : Option (List ParamEntry)) (i r : List Char) (ty : Ty) (r' : List Char)
        (s0 : Option Nat) (srest : List (Option Nat)),
        parse_simple_type comps i = .ok r ty →
        manyBrackets r = .ok r' (s0 :: srest) →
        parse_array comps i = .ok r' (srest.foldl arrayFromSize (arrayFromSize ty s0))) ∧
    parse_exact_type none "string[2][]".toList = .ok [] (.array (.fixedArray .string 2)) ∧
    parse_exact_type none "string[][3]".toList = .ok [] (.fixedArray (.array .string) 3) := by
  refine ⟨?_, parse_exact_string2, parse_exact_string3⟩
  intro comps i r ty r' s0 srest h1 h2
  rw [parse_array, h1]
  simp only [h2]

theorem claim_C5_bracket_fold_witness :
    parse_simple_type none "string[2][]".toList = .ok "[2][]".toList .string ∧
    manyBrackets "[2][]".toList = .ok [] [some 2, none] ∧
    parse_array none "string[2][]".toList =
      .ok [] ([some 2, none].tail.foldl arrayFromSize (arrayFromSize .string (some 2))) :=
  ⟨parse_simple_string2, by decide,
    claim_C5_bracket_fold.1 none _ _ .string [] (some 2) [none]
      parse_simple_string2 (by decide)⟩



theorem resolveComponents_cons (c : ParamEntry) (rest : List ParamEntry) :
    resolveComponents (c :: rest) =
      (match parse_exact_type c.components c.type_.toList with
       | .ok _ t => Option.map (fun tys => (c.name, t) :: tys) (resolveComponents rest)
       | _ => none) := by
  obtain ⟨nm, ty, ix, comps⟩ := c
  rw [resolveComponents]
  simp only [ParamEntry.components, ParamEntry.type_, ParamEntry.name]
  cases parse_exact_type comps ty.toList with
  | ok r t => cases resolveComponents rest <;> simp
  | err => simp
  | fail => simp

/-- C6: parsing the type string `"tuple"` with a supplied components list
yields a `Tuple` of (name, type) pairs in component order, each component
type string parsed recursively against that component's own nested
components (not the parent's); parsing `"tuple"` with no components list
fails with `nom::Err::Failure` (surfaced as the spec's `GrammarError`). -/
theorem claim_C6_tuple (cs : List ParamEntry) :
    (∀ tys, resolveComponents cs = some tys →
        parse_exact_type (some cs) "tuple".toList = .ok [] (.tuple tys)) ∧
    (∀ (c : ParamEntry) (rest : List ParamEntry),
      resolveComponents (c :: rest) =
        (match parse_exact_type c.components c.type_.toList with
         | .ok _ t => Option.map (fun tys => (c.name, t) :: tys) (resolveComponents rest)
         | _ => none)) ∧
    parse_exact_type none "tuple".toList = .fail := by
  refine ⟨?_, fun c rest => resolveComponents_cons c rest, ?_⟩
  · intro tys hres
    have htag : tagP "tuple".toList "tuple".toList = .ok [] () := by decide
    have ht : parse_tuple (some cs) "tuple".toList = .ok [] (.tuple tys) := by
      rw [parse_tuple]
      simp only [htag, hres]
    have hs : parse_simple_type (some cs) "tuple".toList = .ok [] (.tuple tys) := by
      rw [parse_simple_type, ht]
    have ha : parse_array (some cs) "tuple".toList = .err := by
      rw [parse_array, hs]
      rfl
    have hty : parse_type (some cs) "tuple".toList = .ok [] (.tuple tys) := by
      rw [parse_type, ha]
      exact hs
    rw [parse_exact_type, hty]
  · have h1 : parse_tuple none "tuple".toList = .fail := by
      rw [parse_tuple]
      decide
    have h2 : parse_simple_type none "tuple".toList = .fail := by
      rw [parse_simple_type, h1]
    have h3 : parse_array none "tuple".toList = .fail := by
      rw [parse_array, h2]
    have h4 : parse_type none "tuple".toList = .fail := by
      rw [parse_type, h3]
    rw [parse_exact_type, h4]

/-- Components list from the spec's tuple-reconciliation example. -/
def csEx : List ParamEntry :=
  [ .mk "a" "u32" none none, .mk "b" "u32[]" none none ]

theorem parse_exact_u32 : parse_exact_type none "u32".toList = .ok [] .u32 := by
  have hs : parse_simple_type none "u32".toList = .ok [] .u32 := by
    rw [parse_simple_type, parse_tuple]
    decide
  have ha : parse_array none "u32".toList = .err := by
    rw [parse_array, hs]
    rfl
  have ht : parse_type none "u32".toList = .ok [] .u32 := by
    rw [parse_type, ha]
    exact hs
  rw [parse_exact_type, ht]

theorem parse_exact_u32arr : parse_exact_type none "u32[]".toList = .ok [] (.array .u32) := by
  have hs : parse_simple_type none "u32[]".toList = .ok "[]".toList .u32 := by
    rw [parse_simple_type, parse_tuple]
    decide
  have ha : parse_array none "u32[]".toList = .ok [] (.array .u32) := by
    rw [parse_array, hs]
    decide
  rw [parse_exact_type, parse_type, ha]

theorem resolveComponents_csEx :
    resolveComponents csEx = some [("a", Ty.u32), ("b", Ty.array Ty.u32)] := by
  rw [csEx, resolveComponents, parse_exact_u32, resolveComponents, parse_exact_u32arr,
    resolveComponents]

theorem claim_C6_tuple_witness :
    resolveComponents csEx = some [("a", Ty.u32), ("b", Ty.array Ty.u32)] ∧
    parse_exact_type (some csEx) "tuple".toList =
      .ok [] (.tuple [("a", Ty.u32), ("b", Ty.array Ty.u32)]) :=
  ⟨resolveComponents_csEx, (claim_C6_tuple csEx).1 _ resolveComponents_csEx⟩


/-- `param_type_string` from `src/src/params.rs` (lines 147-154). -/
def param_type_string : Ty → String
  | .tuple _ => "tuple"
  | .array t => param_type_string t ++ "[]"
  | .fixedArray t n => param_type_string t ++ "[" ++ toString n ++ "]"
  | t => tyRender t

mutual

/-- Body of `Param::build_param_entry` from `src/src/params.rs` (lines
84-117), abstracted over the param's fields: `components` is populated
exactly when the type is a `Tuple`, or an `Array`/`FixedArray` whose
immediate element is a `Tuple` (one unwrap level), by recursively building
entries for the tuple's fields. -/
def buildEntryAux (nm : String) (ix : Option Bool) (ty : Ty) : ParamEntry :=
  let comps : Option (List ParamEntry) :=
    match ty with
    | .tuple ps => some (buildComponents ps)
    | .array t =>
        match t with
        | .tuple ps => some (buildComponents ps)
        | _ => none
    | .fixedArray t _ =>
        match t with
        | .tuple ps => some (buildComponents ps)
        | _ => none
    | _ => none
  .mk nm (param_type_string ty) ix comps
termination_by (sizeOf ty, 1)

/-- Entries for a tuple's fields: each field becomes
`Param { name, type_, indexed: None }.build_param_entry()`. -/
def buildComponents : List (String × Ty) → List ParamEntry
  | [] => []
  | (n, t) :: rest => buildEntryAux n none t :: buildComponents rest
termination_by l => (sizeOf l, 0)

end

/-- `Param::build_param_entry` from `src/src/params.rs` (lines 84-117). -/
def Param.build_param_entry (p : Param) : ParamEntry :=
  buildEntryAux p.name p.indexed p.type_

/-- C8: `Param` serialization emits a `components` list exactly when the
parameter's type is a `Tuple`, or an `Array`/`FixedArray` whose immediate
element type is a `Tuple` (one level of unwrap only); for any
`Array`/`FixedArray` whose immediate element is itself an array, no
components are emitted, even when a tuple sits deeper. -/
theorem claim_C8_components (p : Param) :
    ((p.build_param_entry).components.isSome = true ↔
      (∃ ps, p.type_ = .tuple ps) ∨ (∃ ps, p.type_ = .array (.tuple ps)) ∨
      (∃ ps n, p.type_ = .fixedArray (.tuple ps) n)) ∧
    (∀ t, p.type_ = .array (.array t) → (p.build_param_entry).components = none) ∧
    (∀ t n, p.type_ = .array (.fixedArray t n) → (p.build_param_entry).components = none) ∧
    (∀ t n, p.type_ = .fixedArray (.array t) n → (p.build_param_entry).components = none) ∧
    (∀ t n m, p.type_ = .fixedArray (.fixedArray t m) n →
      (p.build_param_entry).components = none) := by
  obtain ⟨nm, ty, ix⟩ := p
  refine ⟨?_, ?_, ?_, ?_, ?_⟩
  · cases ty with
    | u32 => simp [Param.build_param_entry, buildEntryAux, ParamEntry.components]
    | u256 => simp [Param.build_param_entry, buildEntryAux, ParamEntry.components]
    | field => simp [Param.build_param_entry, buildEntryAux, ParamEntry.components]
    | address => simp [Param.build_param_entry, buildEntryAux, ParamEntry.components]
    | hash => simp [Param.build_param_entry, buildEntryAux, ParamEntry.components]
    | bool => simp [Param.build_param_entry, buildEntryAux, ParamEntry.components]
    | string => simp [Param.build_param_entry, buildEntryAux, ParamEntry.components]
    | fields => simp [Param.build_param_entry, buildEntryAux, ParamEntry.components]
    | tuple ps => simp [Param.build_param_entry, buildEntryAux, ParamEntry.components]
    | array t =>
        cases t <;> simp [Param.build_param_entry, buildEntryAux, ParamEntry.components]
    | fixedArray t n =>
        cases t <;> simp [Param.build_param_entry, buildEntryAux, ParamEntry.components]
  · intro t h
    have h' : ty = .array (.array t) := h
    subst h'
    simp [Param.build_param_entry, buildEntryAux, ParamEntry.components]
  · intro t n h
    have h' : ty = .array (.fixedArray t n) := h
    subst h'
    simp [Param.build_param_entry, buildEntryAux, ParamEntry.components]
  · intro t n h
    have h' : ty = .fixedArray (.array t) n := h
    subst h'
    simp [Param.build_param_entry, buildEntryAux, ParamEntry.components]
  · intro t n m h
    have h' : ty = .fixedArray (.fixedArray t m) n := h
    subst h'
    simp [Param.build_param_entry, buildEntryAux, ParamEntry.components]

/-- Parameter whose tuple sits two array layers deep. -/
def pDeep : Param :=
  { name := "d", type_ := .array (.array (.tuple [("x", Ty.u32)])), indexed := none }

theorem claim_C8_components_witness :
    (pDeep.build_param_entry).components = none ∧
    ((Param.mk "s" (.tuple [("x", Ty.u32)]) none).build_param_entry).components.isSome = true :=
  ⟨(claim_C8_components pDeep).2.1 _ rfl,
    (claim_C8_components (Param.mk "s" (.tuple [("x", Ty.u32)]) none)).1.mpr
      (Or.inl ⟨[("x", Ty.u32)], rfl⟩)⟩



/-- Error taxonomy of the crate's fallible operations (spec §7); the source
uses `anyhow` strings ("ABI function not found", "missing event topic id",
...), modelled as a closed error kind. -/
inductive Err where
  | notFound
  | missingTopic
  | codecError
  deriving DecidableEq

/-- Result of a Rust function that may also panic: `ok`/`err` mirror
`Result`, `panic` marks an out-of-bounds index or slice (including the
`usize` underflows of `input.len() - 1` / `len() - 2` on short inputs,
which panic in debug builds and produce an out-of-range index or slice in
release builds — a panic either way). -/
inductive RustResult (α : Type) where
  | ok (a : α)
  | err (e : Err)
  | panic

/-- `DecodedParam` from `src/src/params.rs` (lines 6-13). -/
structure DecodedParam where
  param : Param
  value : Value

/-- `DecodedParams` from `src/src/params.rs` (line 25): an ordered list of
decoded params. -/
abbrev DecodedParams := List DecodedParam

/-- `From<Vec<(Param, Value)>> for DecodedParams`
(`src/src/params.rs` lines 44-48). -/
def decodedParamsFrom (l : List (Param × Value)) : DecodedParams :=
  l.map (fun pv => ⟨pv.1, pv.2⟩)

/-- `Function::decode_input_from_slice` from `src/src/abi.rs` (lines
190-204): decode the words against the input types and zip the inputs with
the decoded values. -/
def Function.decode_input_from_slice (f : Function) (input : List Nat) :
    Except Err DecodedParams :=
  match Value.decode_from_slice input (f.inputs.map Param.type_) with
  | some vs => .ok (decodedParamsFrom (f.inputs.zip vs))
  | none => .error .codecError

/-- `Function::decode_output_from_slice` from `src/src/abi.rs` (lines
207-221). -/
def Function.decode_output_from_slice (f : Function) (output : List Nat) :
    Except Err DecodedParams :=
  match Value.decode_from_slice output (f.outputs.map Param.type_) with
  | some vs => .ok (decodedParamsFrom (f.outputs.zip vs))
  | none => .error .codecError

/-- Modelled from the spec: `Event` (spec §3), whose fields are pinned by
the `AbiVisitor` in `src/src/abi.rs` (lines 279-295). -/
structure Event where
  name : String
  inputs : List Param
  anonymous : Bool

/-- `Abi` from `src/src/abi.rs` (lines 21-27). -/
structure Abi where
  functions : List Function
  events : List Event

/-- `Abi::decode_input_from_slice` from `src/src/abi.rs` (lines 31-46).
`find` evaluates `f.method_id() == input[input.len() - 1]` per candidate, so
with a nonempty function list and an empty input the very first closure
call indexes out of bounds (panic); with no functions, `find` never runs
the closure and the lookup just fails. After a successful lookup the slice
`&input[0..input.len() - 2]` panics whenever `input.len() < 2`. -/
def Abi.decode_input_from_slice (H : String → List Nat) (abi : Abi) (input : List Nat) :
    RustResult (Function × DecodedParams) :=
  match abi.functions with
  | [] => .err .notFound
  | _ :: _ =>
      match input.getLast? with
      | none => .panic
      | some last =>
          match abi.functions.find? (fun f => Function.method_id H f == last) with
          | none => .err .notFound
          | some f =>
              if input.length < 2 then .panic
              else
                match f.decode_input_from_slice (input.take (input.length - 2)) with
                | .ok dp => .ok (f, dp)
                | .error e => .err e

/-- `Abi::decode_output_from_slice` from `src/src/abi.rs` (lines 49-65):
lookup is by exact signature (the closure does not touch `output`), then
the slice `&output[0..output.len() - 1]` panics on an empty `output`. -/
def Abi.decode_output_from_slice (abi : Abi) (signature : String) (output : List Nat) :
    RustResult (Function × DecodedParams) :=
  match abi.functions.find? (fun f => f.signature == signature) with
  | none => .err .notFound
  | some f =>
      if output.length < 1 then .panic
      else
        match f.decode_output_from_slice (output.take (output.length - 1)) with
        | .ok dp => .ok (f, dp)
        | .error e => .err e

theorem decode_input_concat (H : String → List Nat) (abi : Abi)
    (ws : List Nat) (c m : Nat) :
    abi.decode_input_from_slice H (ws ++ [c, m]) =
      match abi.functions.find? (fun f => Function.method_id H f == m) with
      | none => .err .notFound
      | some f =>
          match f.decode_input_from_slice ws with
          | .ok dp => .ok (f, dp)
          | .error e => .err e := by
  have hlast : (ws ++ [c, m]).getLast? = some m := by
    rw [show ws ++ [c, m] = (ws ++ [c]) ++ [m] by simp, List.getLast?_concat]
  have h2 : ¬ ((ws ++ [c, m]).length < 2) := by simp
  have htake : (ws ++ [c, m]).take ((ws ++ [c, m]).length - 2) = ws := by
    simp only [List.length_append, List.length_cons, List.length_nil,
      Nat.add_sub_cancel]
    exact List.take_left ws [c, m]
  rw [Abi.decode_input_from_slice]
  cases hfs : abi.functions with
  | nil => simp
  | cons g gs =>
      rw [← hfs]
      simp only [hlast, h2, if_false, htake, hfs]


/-- C3: on a stream `ws ++ [c, m]`, `Abi::decode_input_from_slice` treats
the final word `m` as the method id and the second-to-last word `c` as the
encoded-parameter word count used only to delimit (the result is invariant
under changing it, never re-validated against actual consumption); it fails
with `NotFound` when no function's `method_id()` equals `m`, and otherwise
decodes the prefix `ws` against the matched function's inputs and returns
that function with its `DecodedParams`. -/
theorem claim_C3_decode_input (H : String → List Nat) (abi : Abi)
    (ws : List Nat) (c m : Nat) :
    ((∀ f ∈ abi.functions, Function.method_id H f ≠ m) →
      abi.decode_input_from_slice H (ws ++ [c, m]) = .err .notFound) ∧
    (∀ c' : Nat, abi.decode_input_from_slice H (ws ++ [c, m]) =
      abi.decode_input_from_slice H (ws ++ [c', m])) ∧
    (∀ f, abi.functions.find? (fun f => Function.method_id H f == m) = some f →
      ∀ vs, Value.decode_from_slice ws (f.inputs.map Param.type_) = some vs →
        abi.decode_input_from_slice H (ws ++ [c, m]) =
          .ok (f, decodedParamsFrom (f.inputs.zip vs))) := by
  refine ⟨?_, ?_, ?_⟩
  · intro hnone
    have hfind : abi.functions.find? (fun f => Function.method_id H f == m) = none := by
      rw [List.find?_eq_none]
      intro f hf
      simp [hnone f hf]
    rw [decode_input_concat, hfind]
  · intro c'
    rw [decode_input_concat, decode_input_concat]
  · intro f hfind vs hvs
    rw [decode_input_concat, hfind]
    simp only [Function.decode_input_from_slice, hvs]

/-- C9 (amended): for every `Abi` **with at least one function**,
`decode_input_from_slice` on an empty word stream panics (the find closure
indexes `input[input.len() - 1]` out of bounds); it also panics when the
stream is exactly one word equal to some function's method id (the slice
`&input[0..input.len() - 2]` underflows); and `decode_output_from_slice`
panics when the signature matches a function but the output stream is empty
(`&output[0..output.len() - 1]` underflows). The original claim's "for
every Abi" fails for an ABI with no functions, where `find` never runs the
indexing closure and a `NotFound` error is returned instead (see the
counterexample). -/
theorem claim_C9_amended (H : String → List Nat) (abi : Abi) (w : Nat) (sig : String) :
    (abi.functions ≠ [] → abi.decode_input_from_slice H [] = .panic) ∧
    ((∃ f ∈ abi.functions, Function.method_id H f = w) →
      abi.decode_input_from_slice H [w] = .panic) ∧
    ((∃ f ∈ abi.functions, f.signature = sig) →
      abi.decode_output_from_slice sig [] = .panic) := by
  refine ⟨?_, ?_, ?_⟩
  · intro hne
    rw [Abi.decode_input_from_slice]
    cases hfs : abi.functions with
    | nil => exact absurd hfs hne
    | cons g gs => rfl
  · intro ⟨f, hf, hfm⟩
    have hfind : (abi.functions.find? (fun f => Function.method_id H f == w)).isSome := by
      rw [List.find?_isSome]
      exact ⟨f, hf, by simp [hfm]⟩
    obtain ⟨g', hg'⟩ := Option.isSome_iff_exists.mp hfind
    rw [Abi.decode_input_from_slice]
    cases hfs : abi.functions with
    | nil => rw [hfs] at hf; cases hf
    | cons g gs =>
        rw [hfs] at hg'
        simp only [List.getLast?_singleton, hg']
        norm_num
  · intro ⟨f, hf, hfsig⟩
    rw [Abi.decode_output_from_slice]
    have hfind : (abi.functions.find? (fun f => f.signature == sig)).isSome := by
      rw [List.find?_isSome]
      exact ⟨f, hf, by simp [hfsig]⟩
    obtain ⟨g', hg'⟩ := Option.isSome_iff_exists.mp hfind
    simp only [hg']
    norm_num

/-- C9 counterexample: on an `Abi` with no functions, decoding an empty
input stream returns the `NotFound` error rather than panicking — `find`
over an empty function list never evaluates the closure that would index
out of bounds. -/
theorem claim_C9_counterexample :
    Abi.decode_input_from_slice hashEx ⟨[], []⟩ [] = .err .notFound ∧
    Abi.decode_input_from_slice hashEx ⟨[], []⟩ [] ≠ .panic := by
  constructor
  · rw [Abi.decode_input_from_slice]
  · rw [Abi.decode_input_from_slice]
    simp

/-- One-function ABI used to witness the panic paths. -/
def abiEx : Abi := ⟨[funEx], []⟩

theorem claim_C9_amended_witness :
    Abi.decode_input_from_slice hashEx abiEx [] = .panic ∧
    Abi.decode_input_from_slice hashEx abiEx [Function.method_id hashEx funEx] = .panic ∧
    Abi.decode_output_from_slice abiEx funEx.signature [] = .panic :=
  ⟨(claim_C9_amended hashEx abiEx 0 "").1 (by simp [abiEx]),
   (claim_C9_amended hashEx abiEx (Function.method_id hashEx funEx) "").2.1
      ⟨funEx, by simp [abiEx], rfl⟩,
   (claim_C9_amended hashEx abiEx 0 funEx.signature).2.2
      ⟨funEx, by simp [abiEx], rfl⟩⟩



/-- Input values matching `funEx`'s declared input types, from the
`abi_function_decode_input_from_slice` test of `src/src/abi.rs`. -/
def vsIn : List Value :=
  [ .address [1, 2, 3, 4], .fixedArray [.u32 37, .u32 109] .u32 ]

theorem claim_C3_decode_input_witness :
    abiEx.decode_input_from_slice hashEx
        (Value.encode vsIn ++ [99, Function.method_id hashEx funEx]) =
      .ok (funEx, decodedParamsFrom (funEx.inputs.zip vsIn)) := by
  have hdec : Value.decode_from_slice (Value.encode vsIn) (funEx.inputs.map Param.type_)
      = some vsIn := by
    have h1 := decodeSeq_encode vsIn (funEx.inputs.map Param.type_) (by decide) []
    rw [List.append_nil] at h1
    simp [Value.decode_from_slice, Value.encode, h1]
  have hfind : abiEx.functions.find?
      (fun f => Function.method_id hashEx f == Function.method_id hashEx funEx)
      = some funEx := by
    simp [abiEx, List.find?]
  exact (claim_C3_decode_input hashEx abiEx (Value.encode vsIn) 99
    (Function.method_id hashEx funEx)).2.2 funEx hfind vsIn hdec



/-- `Abi::decode_log_from_slice` from `src/src/abi.rs` (lines 68-86),
parameterized by the event topic computation (`Event::topic`, full 256-bit
hash packed as 4 words) and the event's own data-decoding rule
(`Event::decode_data_from_slice`), both living outside the provided
sources. -/
def Abi.decode_log_from_slice (topicOf : Event → List Nat)
    (decodeData : Event → List (List Nat) → List Nat → Except Err DecodedParams)
    (abi : Abi) (topics : List (List Nat)) (data : List Nat) :
    Except Err (Event × DecodedParams) :=
  match topics with
  | [] => .error .missingTopic
  | t0 :: _ =>
      match abi.events.find? (fun e => topicOf e == t0) with
      | none => .error .notFound
      | some e =>
          match decodeData e topics data with
          | .ok dp => .ok (e, dp)
          | .error er => .error er

/-- C4: `decode_log_from_slice` fails with `MissingTopic` for every empty
topics list; for a non-empty topics list it fails with `NotFound` when no
event's `topic()` equals `topics[0]`, and otherwise returns the matched
event together with the parameters decoded by that event's own
data-decoding rule (abstracted here, as `Event::decode_data_from_slice` is
outside the provided sources). -/
theorem claim_C4_decode_log (topicOf : Event → List Nat)
    (decodeData : Event → List (List Nat) → List Nat → Except Err DecodedParams)
    (abi : Abi) (topics : List (List Nat)) (data : List Nat) :
    (topics = [] →
      Abi.decode_log_from_slice topicOf decodeData abi topics data =
        .error .missingTopic) ∧
    (∀ t0 rest, topics = t0 :: rest → (∀ e ∈ abi.events, topicOf e ≠ t0) →
      Abi.decode_log_from_slice topicOf decodeData abi topics data =
        .error .notFound) ∧
    (∀ t0 rest e, topics = t0 :: rest →
      abi.events.find? (fun e => topicOf e == t0) = some e →
      Abi.decode_log_from_slice topicOf decodeData abi topics data =
        match decodeData e topics data with
        | .ok dp => .ok (e, dp)
        | .error er => .error er) := by
  refine ⟨?_, ?_, ?_⟩
  · intro h
    subst h
    rw [Abi.decode_log_from_slice]
  · intro t0 rest h hnone
    subst h
    have hfind : abi.events.find? (fun e => topicOf e == t0) = none := by
      rw [List.find?_eq_none]
      intro e he
      simp [hnone e he]
    rw [Abi.decode_log_from_slice, hfind]
  · intro t0 rest e h hfind
    subst h
    rw [Abi.decode_log_from_slice, hfind]

/-- Example event. -/
def evEx : Event := { name := "ev", inputs := [], anonymous := false }

/-- Fixed topic function for witnessing. -/
def topicEx : Event → List Nat := fun _ => [1, 2, 3, 4]

/-- Fixed data decoder for witnessing. -/
def decodeDataEx : Event → List (List Nat) → List Nat → Except Err DecodedParams :=
  fun _ _ _ => .ok []

/-- One-event ABI. -/
def abiLogEx : Abi := ⟨[], [evEx]⟩

theorem claim_C4_decode_log_witness :
    Abi.decode_log_from_slice topicEx decodeDataEx abiLogEx [] [] =
      .error .missingTopic ∧
    Abi.decode_log_from_slice topicEx decodeDataEx abiLogEx [[9, 9, 9, 9]] [] =
      .error .notFound ∧
    Abi.decode_log_from_slice topicEx decodeDataEx abiLogEx [[1, 2, 3, 4]] [] =
      .ok (evEx, []) :=
  ⟨(claim_C4_decode_log topicEx decodeDataEx abiLogEx [] []).1 rfl,
   (claim_C4_decode_log topicEx decodeDataEx abiLogEx [[9, 9, 9, 9]] []).2.1
      [9, 9, 9, 9] [] rfl (by simp [abiLogEx, topicEx, evEx]),
   (claim_C4_decode_log topicEx decodeDataEx abiLogEx [[1, 2, 3, 4]] []).2.2
      [1, 2, 3, 4] [] evEx rfl (by simp [abiLogEx, topicEx, List.find?])⟩



/-- `DecodedParamsReader` from `src/src/params.rs` (lines 50-56): decoded
params by position and by name. The `HashMap` is modelled as a lookup
function. -/
structure DecodedParamsReader where
  by_index : List DecodedParam
  by_name : String → Option DecodedParam

/-- `HashMap` built by collecting key-value pairs in order: each insert
overwrites any earlier binding of the same key (the `FromIterator`
semantics of `std::collections::HashMap`). -/
def hashMapOfList (l : List (String × DecodedParam)) : String → Option DecodedParam :=
  l.foldl (fun m kv k => if k = kv.1 then some kv.2 else m k) (fun _ => none)

/-- `DecodedParamsReader::new` from `src/src/params.rs` (lines 58-69):
`by_index` collects every param in order; `by_name` collects the params
with a non-empty name, keyed by name, into a `HashMap`. -/
def DecodedParamsReader.new (dps : DecodedParams) : DecodedParamsReader :=
  { by_index := dps
    by_name := hashMapOfList
      ((dps.filter (fun dp => dp.param.name != "")).map (fun dp => (dp.param.name, dp))) }

/-- `DecodedParams::reader` from `src/src/params.rs` (lines 31-33). -/
def DecodedParams.reader (dps : DecodedParams) : DecodedParamsReader :=
  DecodedParamsReader.new dps

theorem hashMapOfList_lookup (l : List (String × DecodedParam)) (k : String) :
    hashMapOfList l k = ((l.filter (fun kv => kv.1 == k)).getLast?).map Prod.snd := by
  induction l using List.reverseRecOn with
  | nil => simp [hashMapOfList]
  | append_singleton l kv ih =>
      rw [hashMapOfList, List.foldl_append]
      simp only [List.foldl_cons, List.foldl_nil]
      rw [show List.foldl (fun m kv k => if k = kv.1 then some kv.2 else m k)
          (fun _ => none) l = hashMapOfList l from rfl]
      by_cases hk : k = kv.1
      · rw [if_pos hk, List.filter_append, List.filter_singleton]
        have hb : (kv.1 == k) = true := by simp [hk]
        rw [hb, cond_true, List.getLast?_concat]
        rfl
      · rw [if_neg hk, List.filter_append, List.filter_singleton]
        have hb : (kv.1 == k) = false := by
          simp only [beq_eq_false_iff_ne]
          exact fun h => hk h.symm
        rw [hb, cond_false, List.append_nil, ih]

/-- C10: for any decoded params and any non-empty name `n`, the reader's
`by_name` map binds `n` to the **last** parameter with that name in
declaration order (the `HashMap` collect overwrites earlier inserts), while
`by_index` still lists every parameter in original order. -/
theorem claim_C10_by_name (dps : DecodedParams) (n : String) (hn : n ≠ "") :
    (DecodedParamsReader.new dps).by_name n =
      (dps.filter (fun dp => dp.param.name == n)).getLast? ∧
    (DecodedParamsReader.new dps).by_index = dps := by
  refine ⟨?_, rfl⟩
  show hashMapOfList
      ((dps.filter (fun dp => dp.param.name != "")).map (fun dp => (dp.param.name, dp))) n
    = (dps.filter (fun dp => dp.param.name == n)).getLast?
  rw [hashMapOfList_lookup]
  rw [List.filter_map]
  have hcong : (dps.filter (fun dp => dp.param.name != "")).filter
        ((fun kv => kv.1 == n) ∘ (fun dp => (dp.param.name, dp)))
      = dps.filter (fun dp => dp.param.name == n) := by
    rw [List.filter_filter]
    apply List.filter_congr
    intro dp _
    by_cases h : dp.param.name = n
    · simp [h, hn]
    · simp [h]
  rw [hcong]
  rw [List.getLast?_map]
  cases (dps.filter (fun dp => dp.param.name == n)).getLast? <;> rfl

/-- Two decoded params sharing the non-empty name `a`. -/
def dpsEx : DecodedParams :=
  [ ⟨⟨"a", .u32, none⟩, .u32 1⟩, ⟨⟨"a", .u32, none⟩, .u32 2⟩ ]

theorem claim_C10_by_name_witness :
    (DecodedParamsReader.new dpsEx).by_name "a" =
      (dpsEx.filter (fun dp => dp.param.name == "a")).getLast? ∧
    (DecodedParamsReader.new dpsEx).by_index = dpsEx :=
  claim_C10_by_name dpsEx "a" (by decide)

end OlaAbi
